import Mathlib

/-!
Verification development for the ticktock job scheduler.

The development shallowly embeds the two components of the system:

* the time-spec resolver (package `t`, file `t.go`): pure functions from a
  recurrence description (`When`) and an anchor instant to a wait duration;
* the scheduler / job lifecycle manager (package `ticktock`): registration
  with validation, the bounded-retry run loop, and the timer/cancel
  lifecycle of a single job, the latter modelled as a small-step
  transition system.

Modelling conventions:

* Instants (`time.Time`) are integers: nanoseconds counted from an epoch
  chosen to be a Sunday at 00:00 of the ambient (fixed-offset, DST-free)
  location.  Hence the calendar accessors `Hour`, `Minute` and `Weekday`
  are floor-division/Euclidean-mod expressions over the instant.
* Durations (`time.Duration`) are integers counting nanoseconds.  Go's
  `int64` overflow is not modelled; all claims concern magnitudes far
  below the overflow range.
* Go's `math.Mod` is truncated remainder, embedded as `Int.tmod`.
* The `Each` string field is modelled by its `time.ParseDuration` outcome:
  `none` for the empty string, `some d` for a non-empty string whose parse
  (with the error discarded, as in the source) yields `d`; an unparseable
  non-empty string yields `some 0`, e.g. `"2hm"` maps to `some 0`,
  `"2h5m"` to `some (2 * hour + 5 * minute)` and `"-5s"` to
  `some (-5 * second)`.
* `time.Now()` is passed explicitly as a `now : Int` parameter; the
  catch-up loop of `When.Next` reads the clock on each iteration, which we
  idealise as a single fixed `now` (instantaneous loop execution).  The
  loop itself need not terminate, so it is embedded with explicit fuel and
  an `Option` result: `none` means the loop was still running after the
  given number of iterations.
-/

namespace Ticktock

/-- One millisecond in nanoseconds (`time.Millisecond`). -/
def millisecond : Int := 1000000

/-- One second in nanoseconds (`time.Second`). -/
def second : Int := 1000 * millisecond

/-- One minute in nanoseconds (`time.Minute`). -/
def minute : Int := 60 * second

/-- One hour in nanoseconds (`time.Hour`). -/
def hour : Int := 60 * minute

/-- One day in nanoseconds (`24 * time.Hour`). -/
def day : Int := 24 * hour

/-! The constant block of `t.go` (one `iota` run: `NoDay = 0 .. Sat = 7`,
then `tNone = 8 .. tWeek = 14`). -/

def NoDay : Int := 0
def Sun : Int := 1
def Mon : Int := 2
def Tue : Int := 3
def Wed : Int := 4
def Thu : Int := 5
def Fri : Int := 6
def Sat : Int := 7
def tNone : Int := 8
def tMillisecond : Int := 9
def tSecond : Int := 10
def tMinute : Int := 11
def tHour : Int := 12
def tDay : Int := 13
def tWeek : Int := 14

/-- Embeds `time.Time.Hour`: hour within the day of an instant, in `[0, 24)`. -/
def hourOf (t : Int) : Int := (t / hour) % 24

/-- Embeds `time.Time.Minute`: minute within the hour of an instant, in `[0, 60)`. -/
def minuteOf (t : Int) : Int := (t / minute) % 60

/-- Embeds `time.Time.Weekday`: weekday of an instant, in `[0, 7)` with `0 =`
Sunday (the epoch of the instant model is a Sunday midnight). -/
def weekdayOf (t : Int) : Int := (t / day) % 7

/-- The unit/count pair of `t.go`: `type every struct { t int; n int }`. -/
structure every where
  t : Int
  n : Int
deriving DecidableEq, Repr

/-- Embeds `type When struct` of `t.go`.  `Each` is modelled by its parse outcome
(see the module docstring); `At` stays a raw string, scanned by the
embedded regular-expression matcher below. -/
structure When where
  LastRun : Int
  Each : Option Int
  Every : Option every
  On : Int
  At : String
deriving DecidableEq, Repr

/-- Embeds `type Opts struct` of `t.go`. -/
structure Opts where
  When : Option When
  RetryCount : Int
  Timeout : Int
deriving DecidableEq, Repr

/-- Embeds `func Every(n int) *every`: count below 1 is clamped to 1; the initial
unit is seconds. -/
def EveryF (n : Int) : every :=
  { t := tSecond, n := if n < 1 then 1 else n }

/-- Embeds `func (e *every) Milliseconds() *every`. -/
def Milliseconds (e : every) : every := { e with t := tMillisecond }

/-- Embeds `func (e *every) Seconds() *every`. -/
def Seconds (e : every) : every := { e with t := tSecond }

/-- Embeds `func (e *every) Minutes() *every`. -/
def Minutes (e : every) : every := { e with t := tMinute }

/-- Embeds `func (e *every) Hours() *every`. -/
def Hours (e : every) : every := { e with t := tHour }

/-- Embeds `func (e *every) Days() *every`. -/
def Days (e : every) : every := { e with t := tDay }

/-- Embeds `func (e *every) Weeks() *every`. -/
def Weeks (e : every) : every := { e with t := tWeek }

/-- Numeric value of a decimal digit character. -/
def digitVal (c : Char) : Int := (c.toNat : Int) - (('0').toNat : Int)

/-- Embeds `strconv.ParseInt(val, 10, 64)` with the error discarded (the source
ignores it, so a string that is not all digits contributes `0`).  The
strings reaching this function come from the regexp groups below, hence
consist of digit, `*` and `|` characters only, and are short enough never
to overflow `int64`. -/
def parseIntOr0 (s : List Char) : Int :=
  if s ≠ [] ∧ s.all Char.isDigit then
    s.foldl (fun a c => 10 * a + digitVal c) 0
  else 0

/-- Embeds `func mod(val string, n, m int) float64`:
`math.Mod(float64(m+int(value)-n), float64(m))` — truncated remainder, on
integral values, hence `Int.tmod`. -/
def goMod (val : List Char) (n m : Int) : Int :=
  Int.tmod (m + parseIntOr0 val - n) m

/-- Character class `[\d|\*]` of the pattern in `nextAtMatch`: a decimal
digit, the literal `|`, or the literal `*`. -/
def atClass (c : Char) : Bool := c.isDigit || c = '*' || c = '|'

/-- The leftmost match of the regular expression
`([\d|\*]{2}):([\d|\*]\d)` in a character list: the first position where
five consecutive characters have the shape
(class, class, colon, class, digit); returns the four captured characters
(hour tens, hour units, minute tens, minute units) or `none`. -/
def findAtMatch : List Char → Option (Char × Char × Char × Char)
  | [] => none
  | c :: rest =>
    match rest with
    | h2 :: col :: m1 :: m2 :: _ =>
      if atClass c ∧ atClass h2 ∧ col = ':' ∧ atClass m1 ∧ m2.isDigit then
        some (c, h2, m1, m2)
      else findAtMatch rest
    | _ => none

/-- Embeds `func nextAtMatch(start time.Time, at string)`: the
clock-time delta to the next match of the `At` pattern.  No match (in
particular an empty string) contributes zero.  A non-`**` hour group
contributes `hour * mod(hourGroup, start.Hour(), 24)`; a minute group with
a `*` tens digit contributes
`minute * mod(unitsDigit, start.Minute() mod 10, 10)`; otherwise the
minute group contributes `minute * mod(minuteGroup, start.Minute(), 60)`. -/
def nextAtMatch (start : Int) (pat : String) : Int :=
  match findAtMatch pat.data with
  | none => 0
  | some (h1, h2, m1, m2) =>
    let hd : Int :=
      if h1 = '*' ∧ h2 = '*' then 0
      else hour * goMod [h1, h2] (hourOf start) 24
    let md : Int :=
      if m1 = '*' then
        minute * goMod [m2] (Int.tmod (minuteOf start) 10) 10
      else
        minute * goMod [m1, m2] (minuteOf start) 60
    hd + md

/-- Embeds `func nextDayMatch(start time.Time, day int)`:
`math.Mod(7+(day-1)-start.Weekday(), 7)` whole days. -/
def nextDayMatch (start : Int) (d : Int) : Int :=
  Int.tmod (7 + (d - 1) - weekdayOf start) 7 * (24 * hour)

/-- Embeds `func nextDayAndAtMatch(start time.Time, day int, at string)`: with a
day constraint, the result is the clock-time delta computed from the
weekday-shifted anchor (the initially computed `dur` is overwritten, not
added to). -/
def nextDayAndAtMatch (start : Int) (d : Int) (pat : String) : Int :=
  let dur := nextAtMatch start pat
  if d ≠ NoDay then
    nextAtMatch (start + nextDayMatch start d) pat
  else dur

/-- Embeds `func (w *When) Duration(start time.Time) time.Duration`. -/
def Duration (w : When) (start : Int) : Int :=
  match w.Each with
  | some dur => dur
  | none =>
    match w.Every with
    | none => nextDayAndAtMatch start w.On w.At
    | some e =>
      let n : Int := e.n
      if e.t = tMillisecond then n * millisecond
      else if e.t = tSecond then n * second
      else if e.t = tMinute then n * minute
      else if e.t = tHour then n * hour + nextAtMatch start w.At
      else if e.t = tDay then n * 24 * hour + nextAtMatch start w.At
      else if e.t = tWeek then
        let weekdayDiff : Int :=
          if w.On ≠ NoDay then Int.tmod (7 + w.On - 1 - weekdayOf start) 7
          else 0
        (n * 7 + weekdayDiff) * (24 * hour) + nextAtMatch start w.At
      else 0

/-- The body of the catch-up loop of `func (w *When) Next`, with explicit
fuel: compute `diff = start + interval - now`; return it if strictly
positive, else fake a run at `start + interval` and continue with
`interval + Duration(start + interval)`.  `none` means the loop had not
exited after `fuel` iterations. -/
def nextLoop (w : When) (start now : Int) : Nat → Int → Option Int
  | 0, _ => none
  | fuel + 1, interval =>
    let diff := start + interval - now
    if 0 < diff then some diff
    else nextLoop w start now fuel (interval + Duration w (start + interval))

/-- Embeds `func (w *When) Next(start time.Time)`: starts the
catch-up loop at `interval = Duration(start)`. -/
def Next (w : When) (start now : Int) (fuel : Nat) : Option Int :=
  nextLoop w start now fuel (Duration w start)

/-! Scheduler (package `ticktock`).

The persistent part of a job entry (`type jobC struct`): the runnable, the
timer handle and the cancellation channel are modelled separately (the
retry loop takes the runnable's outcomes as a function, and the
timer/cancel lifecycle is the transition system below), and the
back-reference to the owning scheduler carries no data. -/

structure jobC where
  retryCount : Int
  when : When
  forever : Bool
deriving DecidableEq, Repr

/-- Embeds `type Scheduler struct`: the name-to-entry map (as an association
list) and the started flag.  The wait group and mutex have no data
content. -/
structure Scheduler where
  jobs : List (String × jobC)
  started : Bool
deriving DecidableEq, Repr

/-- Embeds `func (s *Scheduler) ScheduleWithOpts(name, job, opts)`: duplicate
names are rejected first, then a missing `When` or one whose `Duration`
at the current instant is zero; otherwise the entry is inserted with
`forever = (opts.When.Every != nil)`.  The result pairs the returned
error (as `Option String`) with the scheduler state after the call. -/
def ScheduleWithOpts (s : Scheduler) (name : String) (opts : Opts)
    (now : Int) : Option String × Scheduler :=
  if (s.jobs.lookup name).isSome then
    (some "a job already exists with the name provided", s)
  else
    match opts.When with
    | none => (some "not a valid opts.When is provided", s)
    | some w =>
      if Duration w now = 0 then
        (some "not a valid opts.When is provided", s)
      else
        (none,
          { s with
            jobs := (name,
              { retryCount := opts.RetryCount,
                when := w,
                forever := w.Every.isSome }) :: s.jobs })

/-- The loop of `func (j *jobC) run()` counted: `f i` is the success of
the `i`-th invocation of the runnable (`true` iff `job.Run()` returned
`nil`), `fuel` the remaining iterations of `for i := 0; i < retryCount+1`;
the result is how many invocations were performed before the loop broke
at the first success or exhausted its bound. -/
def runCount (f : Nat → Bool) : Nat → Nat → Nat
  | _, 0 => 0
  | i, fuel + 1 => if f i then 1 else 1 + runCount f (i + 1) fuel

/-- Embeds `func (j *jobC) run()`: number of invocations of the runnable in one
scheduled firing, with `retryCount` as in the entry (a negative count
gives zero loop iterations, as in Go).  The function is total and returns
no error: a failure of every attempt is swallowed. -/
def runInvocations (retryCount : Int) (f : Nat → Bool) : Nat :=
  runCount f 0 (retryCount + 1).toNat

/-! Timer/cancel lifecycle of a single job.

`func (j *jobC) schedule()`, the `time.AfterFunc` callback, and
`func (j *jobC) cancel()` (as invoked under the scheduler lock by
`func (s *Scheduler) Cancel`) interleave as two sequential threads:

* the job thread: each `schedule()` call runs a `select` that takes the
  `cancelSig` receive when (and only when) the cancelling thread is
  blocked sending on that unbuffered channel, and otherwise takes
  `default` and arms the timer; the timer fires only if armed and not
  stopped; the callback runs the job, then either recurses into
  `schedule()` (`forever` set) or marks the entry done;
* the cancel thread: `cancel()` first blocks sending on `cancelSig` until
  a `schedule()` call receives (the rendezvous, after which that
  `schedule()` stops the timer and marks the entry done without arming),
  then stops the timer itself and returns.

The state below records the job thread's position, the cancel thread's
position, the constant `forever` flag, whether the live timer has been
stopped, and event counters for runs started and timers armed. -/

inductive JobPhase where
  | scheduling
  | waiting
  | running
  | finished
deriving DecidableEq, Repr

inductive CancelPhase where
  | idle
  | sending
  | stopping
  | returned
deriving DecidableEq, Repr

structure LifeState where
  phase : JobPhase
  cphase : CancelPhase
  forever : Bool
  timerStopped : Bool
  runs : Nat
  arms : Nat
deriving DecidableEq, Repr

/-- One interleaving step of the job thread and the cancel thread. -/
inductive LifeStep : LifeState → LifeState → Prop where
  | arm (s : LifeState) (h1 : s.phase = JobPhase.scheduling)
      (h2 : s.cphase ≠ CancelPhase.sending) :
      LifeStep s { s with phase := JobPhase.waiting, timerStopped := false,
                          arms := s.arms + 1 }
  | fire (s : LifeState) (h1 : s.phase = JobPhase.waiting)
      (h2 : s.timerStopped = false) :
      LifeStep s { s with phase := JobPhase.running, runs := s.runs + 1 }
  | finish (s : LifeState) (h1 : s.phase = JobPhase.running) :
      LifeStep s { s with phase :=
        if s.forever then JobPhase.scheduling else JobPhase.finished }
  | cancelCall (s : LifeState) (h1 : s.cphase = CancelPhase.idle) :
      LifeStep s { s with cphase := CancelPhase.sending }
  | rendezvous (s : LifeState) (h1 : s.phase = JobPhase.scheduling)
      (h2 : s.cphase = CancelPhase.sending) :
      LifeStep s { s with phase := JobPhase.finished, timerStopped := true,
                          cphase := CancelPhase.stopping }
  | cancelReturn (s : LifeState) (h1 : s.cphase = CancelPhase.stopping) :
      LifeStep s { s with cphase := CancelPhase.returned,
                          timerStopped := true }

/-- The state in which a job entry with the given `forever` flag enters
its first `schedule()` call (from `Start` or from registration on a
started scheduler). -/
def initLife (forever : Bool) : LifeState :=
  { phase := JobPhase.scheduling, cphase := CancelPhase.idle,
    forever := forever, timerStopped := true, runs := 0, arms := 0 }

/-- Reachability along lifecycle steps. -/
def LifeReach : LifeState → LifeState → Prop :=
  Relation.ReflTransGen LifeStep

/-! Concrete recurrence specs used to instantiate the theorems below. -/

/-- Spec `&When{Each: "-5s"}`: a parseable non-zero duration string whose
parsed value is negative. -/
def negEachWhen : When :=
  { LastRun := 0, Each := some (-5 * second), Every := none, On := 0, At := "" }

/-- Spec `&When{Every: Every(5).Minutes()}`. -/
def fiveMinWhen : When :=
  { LastRun := 0, Each := none, Every := some { t := tMinute, n := 5 },
    On := 0, At := "" }

/-- Spec `&When{Every: Every(2).Hours(), At: "10:00"}`. -/
def hourAtWhen : When :=
  { LastRun := 0, Each := none, Every := some { t := tHour, n := 2 },
    On := 0, At := "10:00" }

/-- Spec `&When{On: Mon, At: "03:00"}` (no `Each`, no `Every`). -/
def mondayAtWhen : When :=
  { LastRun := 0, Each := none, Every := none, On := Mon, At := "03:00" }

/-- Spec `&When{Every: Every(3).Weeks(), On: Tue}` (no `At`). -/
def weekNoAtWhen : When :=
  { LastRun := 0, Each := none, Every := some { t := tWeek, n := 3 },
    On := Tue, At := "" }

/-- State of a recurring job after the cancellation handshake completed:
single run performed, single arm performed, entry done, timer stopped. -/
def cancelledState : LifeState :=
  { phase := JobPhase.finished, cphase := CancelPhase.returned,
    forever := true, timerStopped := true, runs := 1, arms := 1 }

/-- Length in nanoseconds of the sub-hour units of the `switch` in
`When.Duration` (`tMillisecond`, `tSecond`, `tMinute`); other tags map to
zero. -/
def unitLen (t : Int) : Int :=
  if t = tMillisecond then millisecond
  else if t = tSecond then second
  else if t = tMinute then minute
  else 0

/-- Modelled from the spec's words, not from the code: the character
class of the spec's description of the clock-time pattern shape, "a
digit or `*`" — without the literal `|` that the code's regexp class
`[\d|\*]` additionally accepts. -/
def specAtClass (c : Char) : Bool := c.isDigit || c = '*'

/-- Modelled from the spec's words, not from the code: leftmost substring
of the two-digit `HH:MM` shape as the spec describes it (each hour
character a digit or `*`, minute tens a digit or `*`, minute units a
literal digit).  Used only to state the counterexample separating this
description from the code's matcher `findAtMatch`. -/
def findSpecShape : List Char → Option (Char × Char × Char × Char)
  | [] => none
  | c :: rest =>
    match rest with
    | h2 :: col :: m1 :: m2 :: _ =>
      if specAtClass c ∧ specAtClass h2 ∧ col = ':' ∧ specAtClass m1 ∧
          m2.isDigit then
        some (c, h2, m1, m2)
      else findSpecShape rest
    | _ => none

/-- Spec `&When{Every: Every(1).Hours(), At: "|0:00"}`: the `At` string
has no substring of the spec-described digit-or-`*` shape, but the code's
regexp class also accepts `|`, so the matcher still fires on it. -/
def pipeAtWhen : When :=
  { LastRun := 0, Each := none, Every := some { t := tHour, n := 1 },
    On := 0, At := "|0:00" }

/-! Helper lemmas. -/

lemma hourOf_nonneg (t : Int) : 0 ≤ hourOf t :=
  Int.emod_nonneg _ (by norm_num)

lemma hourOf_lt (t : Int) : hourOf t < 24 :=
  Int.emod_lt_of_pos _ (by norm_num)

lemma minuteOf_nonneg (t : Int) : 0 ≤ minuteOf t :=
  Int.emod_nonneg _ (by norm_num)

lemma minuteOf_lt (t : Int) : minuteOf t < 60 :=
  Int.emod_lt_of_pos _ (by norm_num)

lemma weekdayOf_nonneg (t : Int) : 0 ≤ weekdayOf t :=
  Int.emod_nonneg _ (by norm_num)

lemma weekdayOf_lt (t : Int) : weekdayOf t < 7 :=
  Int.emod_lt_of_pos _ (by norm_num)

/-! Theorems for the claims. -/

/-- C5: `ScheduleWithOpts` returns an error exactly when the name is a
duplicate, the `When` is absent, or its `Duration` at the current instant
is zero; and on error the job map (hence every previously registered
entry) is unchanged. -/
theorem scheduleWithOpts_error_iff (s : Scheduler) (name : String)
    (opts : Opts) (now : Int) :
    ((ScheduleWithOpts s name opts now).1.isSome ↔
      ((s.jobs.lookup name).isSome = true ∨ opts.When = none ∨
        ∃ w, opts.When = some w ∧ Duration w now = 0)) ∧
    ((ScheduleWithOpts s name opts now).1.isSome →
      (ScheduleWithOpts s name opts now).2 = s) := by
  unfold ScheduleWithOpts
  by_cases hdup : (s.jobs.lookup name).isSome
  · simp [hdup]
  · cases hw : opts.When with
    | none => simp [hdup]
    | some w =>
      by_cases hz : Duration w now = 0
      · simp [hdup, hz]
      · simp [hdup, hz]

/-- Witness for C5 at a concrete input: registering with an absent `When`
fails and leaves the (empty) scheduler untouched. -/
theorem scheduleWithOpts_error_iff_witness :
    ((ScheduleWithOpts { jobs := [], started := false } "a"
        { When := none, RetryCount := 0, Timeout := 0 } 0).1.isSome = true) ∧
    (ScheduleWithOpts { jobs := [], started := false } "a"
        { When := none, RetryCount := 0, Timeout := 0 } 0).2 =
      { jobs := [], started := false } := by
  constructor
  · exact (scheduleWithOpts_error_iff { jobs := [], started := false } "a"
      { When := none, RetryCount := 0, Timeout := 0 } 0).1.mpr
      (Or.inr (Or.inl rfl))
  · exact (scheduleWithOpts_error_iff { jobs := [], started := false } "a"
      { When := none, RetryCount := 0, Timeout := 0 } 0).2 (by decide)

lemma runCount_le (f : Nat → Bool) : ∀ (fuel i : Nat), runCount f i fuel ≤ fuel := by
  intro fuel
  induction fuel with
  | zero => intro i; simp [runCount]
  | succ n ih =>
    intro i
    by_cases h : f i
    · simp [runCount, h]
    · simp [runCount, h]
      have := ih (i + 1)
      omega

lemma runCount_allFail (f : Nat → Bool) (hf : ∀ j, f j = false) :
    ∀ (fuel i : Nat), runCount f i fuel = fuel := by
  intro fuel
  induction fuel with
  | zero => intro i; simp [runCount]
  | succ n ih =>
    intro i
    simp [runCount, hf i]
    have := ih (i + 1)
    omega

lemma runCount_early_fail (f : Nat → Bool) :
    ∀ (fuel i m : Nat), m + 1 < runCount f i fuel → f (i + m) = false := by
  intro fuel
  induction fuel with
  | zero => intro i m h; simp [runCount] at h
  | succ n ih =>
    intro i m h
    by_cases hfi : f i
    · simp [runCount, hfi] at h
    · simp [runCount, hfi] at h
      cases m with
      | zero => simpa using hfi
      | succ m' =>
        have := ih (i + 1) m' (by omega)
        simpa [Nat.add_comm, Nat.add_assoc, Nat.add_left_comm] using this

lemma runCount_first_success (f : Nat → Bool) :
    ∀ (fuel i m : Nat), m < fuel → f (i + m) = true →
      (∀ l, l < m → f (i + l) = false) → runCount f i fuel = m + 1 := by
  intro fuel
  induction fuel with
  | zero => intro i m h; omega
  | succ n ih =>
    intro i m hm hs hbefore
    cases m with
    | zero =>
      simp at hs
      simp [runCount, hs]
    | succ m' =>
      have h0 : f i = false := by simpa using hbefore 0 (Nat.succ_pos m')
      simp [runCount, h0]
      have hrec := ih (i + 1) m' (by omega)
        (by simpa [Nat.add_comm, Nat.add_assoc, Nat.add_left_comm] using hs)
        (by intro l hl
            have := hbefore (l + 1) (by omega)
            simpa [Nat.add_comm, Nat.add_assoc, Nat.add_left_comm] using this)
      omega

/-- C6: per scheduled firing, the retry loop of `jobC.run` invokes the
runnable at most `k + 1` times for `retryCount = k`; every invocation
before the last one failed (the loop stops at the first success, which is
the content of the third conjunct); and a runnable that always fails is
invoked exactly `k + 1` times, with `runInvocations` total (returning
normally: the failure is not propagated). -/
theorem retry_bound (k : Nat) (f : Nat → Bool) :
    runInvocations k f ≤ k + 1 ∧
    (∀ m : Nat, m + 1 < runInvocations k f → f m = false) ∧
    (∀ j : Nat, j < k + 1 → f j = true → (∀ l, l < j → f l = false) →
      runInvocations k f = j + 1) ∧
    ((∀ m : Nat, f m = false) → runInvocations k f = k + 1) := by
  have hfuel : ((k : Int) + 1).toNat = k + 1 := by omega
  unfold runInvocations
  rw [hfuel]
  refine ⟨runCount_le f (k + 1) 0, ?_, ?_, ?_⟩
  · intro m h
    simpa using runCount_early_fail f (k + 1) 0 m h
  · intro j hj hs hb
    exact runCount_first_success f (k + 1) 0 j hj (by simpa using hs)
      (by intro l hl; simpa using hb l hl)
  · intro hf
    exact runCount_allFail f hf (k + 1) 0

/-- Witness for C6 at a concrete input: with `retryCount = 2` and a
runnable that always fails, exactly three invocations occur, and the
first two of them (indeed all) report failure. -/
theorem retry_bound_witness :
    runInvocations 2 (fun _ => false) ≤ 2 + 1 ∧
    runInvocations 2 (fun _ => false) = 2 + 1 :=
  ⟨(retry_bound 2 (fun _ => false)).1,
   (retry_bound 2 (fun _ => false)).2.2.2 (fun _ => rfl)⟩

lemma duration_negEach (u : Int) : Duration negEachWhen u = -5 * second := rfl

lemma nextLoop_negEach (start now : Int) (hs : start ≤ now) :
    ∀ (fuel : Nat) (interval : Int), interval ≤ 0 →
      nextLoop negEachWhen start now fuel interval = none := by
  intro fuel
  induction fuel with
  | zero => intro interval _; rfl
  | succ n ih =>
    intro interval hint
    have hdiff : ¬(0 < start + interval - now) := by omega
    have hnext : interval + Duration negEachWhen (start + interval) ≤ 0 := by
      rw [duration_negEach]
      have : (0:Int) < second := by norm_num [second, millisecond]
      omega
    simp only [nextLoop, hdiff, if_false]
    exact ih _ hnext

/-- C9: the spec `&When{Each: "-5s"}` is accepted by registration at any
instant (its duration, `-5s`, is non-zero, the name is fresh and the
`When` is present), yet `Next` never terminates when the anchor is not in
the future: for every amount of fuel the catch-up loop is still running,
because every cumulative interval stays non-positive and the exit
condition `start + interval > now` is never reached. -/
theorem negEach_accepted_but_next_diverges :
    (∀ now : Int,
      (ScheduleWithOpts { jobs := [], started := false } "neg"
        { When := some negEachWhen, RetryCount := 0, Timeout := 0 } now).1 =
        none) ∧
    (∀ (fuel : Nat) (start now : Int), start ≤ now →
      Next negEachWhen start now fuel = none) := by
  constructor
  · intro now
    have hz : Duration negEachWhen now ≠ 0 := by
      rw [duration_negEach]; norm_num [second, millisecond]
    simp [ScheduleWithOpts, hz]
  · intro fuel start now hs
    unfold Next
    apply nextLoop_negEach start now hs
    rw [duration_negEach]
    norm_num [second, millisecond]

/-- Witness for C9 at a concrete input: with anchor and clock both at the
epoch, registration succeeds and seven loop iterations have not exited. -/
theorem negEach_accepted_but_next_diverges_witness :
    (ScheduleWithOpts { jobs := [], started := false } "neg"
      { When := some negEachWhen, RetryCount := 0, Timeout := 0 } 0).1 =
      none ∧
    Next negEachWhen 0 0 7 = none :=
  ⟨negEach_accepted_but_next_diverges.1 0,
   negEach_accepted_but_next_diverges.2 7 0 0 (by decide)⟩

/-- C2 (the code side of the divergence): for `Every(2).Hours()` with
`At: "10:00"` and an anchor at Sunday 00:00, `Duration` returns 12 hours
— the base `2 * hour` plus the full hour delta `(10 - 0) mod 24` of the
pattern — not the 2 hours that the spec's "hour component of the pattern
is ignored" rule predicts (the source itself carries the comment
`TODO: ignore At's hour` at the corresponding line). -/
theorem hourUnit_at_hour_included :
    Duration hourAtWhen 0 = 12 * hour ∧ (12 : Int) * hour ≠ 2 * hour := by
  constructor
  · rfl
  · norm_num [hour, minute, second, millisecond]

/-- C3 counterexample: for `&When{On: Mon, At: "03:00"}` (no `Each`, no
`Every`) at an anchor of Sunday 00:00, `Duration` returns only the
3-hour clock delta computed from the weekday-shifted anchor; it does not
equal the claimed whole-day weekday delta (24 hours to Monday) plus that
clock delta. -/
theorem onDay_counterexample :
    Duration mondayAtWhen 0 = 3 * hour ∧
    Duration mondayAtWhen 0 ≠
      nextDayMatch 0 Mon + nextAtMatch (0 + nextDayMatch 0 Mon) "03:00" := by
  constructor
  · rfl
  · intro h
    rw [show Duration mondayAtWhen 0 = 3 * hour from rfl] at h
    rw [show nextDayMatch 0 Mon = 24 * hour from rfl] at h
    rw [show nextAtMatch (0 + 24 * hour) "03:00" = 3 * hour from rfl] at h
    norm_num [hour, minute, second, millisecond] at h

/-- C3 amended: when `Each` is empty, `Every` unset and `onDayOfWeek` a
weekday (Sun..Sat), `duration` equals the clock-time delta to the next
`atClockTime` match computed from the weekday-shifted anchor
(`start + ((On - 1 - weekday(start)) mod 7)` days); the whole-day delta
shifts the anchor but is not itself added to the returned wait. -/
theorem onDay_shifts_anchor_only (w : When) (start : Int)
    (heach : w.Each = none) (hev : w.Every = none)
    (hon : Sun ≤ w.On ∧ w.On ≤ Sat) :
    Duration w start = nextAtMatch (start + nextDayMatch start w.On) w.At ∧
    nextDayMatch start w.On =
      (w.On - 1 - weekdayOf start) % 7 * (24 * hour) := by
  have hno : w.On ≠ NoDay := by
    simp only [Sun, Sat] at hon
    simp only [NoDay]
    omega
  constructor
  · simp [Duration, heach, hev, nextDayAndAtMatch, hno]
  · unfold nextDayMatch
    congr 1
    have hwd0 := weekdayOf_nonneg start
    have hwd7 := weekdayOf_lt start
    simp only [Sun, Sat] at hon
    rw [Int.tmod_eq_emod (by omega) (by omega)]
    rw [show (7 : Int) + (w.On - 1) - weekdayOf start =
        w.On - 1 - weekdayOf start + 7 * 1 from by ring,
      Int.add_mul_emod_self_left]

/-- Witness for the amended C3 at a concrete input: for
`&When{On: Mon, At: "03:00"}` anchored at Sunday 00:00 the duration is
the clock delta from the Monday-shifted anchor, and the weekday shift is
one day. -/
theorem onDay_shifts_anchor_only_witness :
    Duration mondayAtWhen 0 =
      nextAtMatch (0 + nextDayMatch 0 mondayAtWhen.On) mondayAtWhen.At ∧
    nextDayMatch 0 mondayAtWhen.On =
      (mondayAtWhen.On - 1 - weekdayOf 0) % 7 * (24 * hour) :=
  onDay_shifts_anchor_only mondayAtWhen 0 rfl rfl (by decide)

/-- C10: when the `At` string has no substring of the `HH:MM` shape
accepted by the matcher (in particular when it is empty), the clock-time
delta is zero, and consequently `Duration` for the hour, day and week
units is exactly `count * unit_length`, plus (for the week unit) the
weekday delta when `onDayOfWeek` is set. -/
theorem duration_no_at (w : When) (e : every) (start : Int)
    (heach : w.Each = none) (hev : w.Every = some e)
    (hat : findAtMatch w.At.data = none)
    (hon : w.On = NoDay ∨ (Sun ≤ w.On ∧ w.On ≤ Sat)) :
    nextAtMatch start w.At = 0 ∧
    (e.t = tHour → Duration w start = e.n * hour) ∧
    (e.t = tDay → Duration w start = e.n * 24 * hour) ∧
    (e.t = tWeek → Duration w start =
      (e.n * 7 +
        (if w.On = NoDay then 0 else (w.On - 1 - weekdayOf start) % 7)) *
        (24 * hour)) := by
  have hat0 : nextAtMatch start w.At = 0 := by
    unfold nextAtMatch
    rw [hat]
  refine ⟨hat0, ?_, ?_, ?_⟩
  · intro ht
    simp [Duration, heach, hev, ht, tHour, tMillisecond, tSecond, tMinute,
      hat0]
  · intro ht
    simp [Duration, heach, hev, ht, tDay, tMillisecond, tSecond, tMinute,
      tHour, hat0]
  · intro ht
    rcases hon with hon | hon
    · simp [Duration, heach, hev, ht, tWeek, tMillisecond, tSecond, tMinute,
        tHour, tDay, hat0, hon]
    · have hno : ¬(w.On = NoDay) := by
        simp only [Sun, Sat] at hon
        simp only [NoDay]
        omega
      simp [Duration, heach, hev, ht, tWeek, tMillisecond, tSecond, tMinute,
        tHour, tDay, hat0, hno]
      have hwd0 := weekdayOf_nonneg start
      have hwd7 := weekdayOf_lt start
      simp only [Sun, Sat] at hon
      rw [Int.tmod_eq_emod (by omega) (by omega)]
      rw [show (7 : Int) + w.On - 1 - weekdayOf start =
          w.On - 1 - weekdayOf start + 7 * 1 from by ring,
        Int.add_mul_emod_self_left]
      exact Or.inl rfl

/-- Witness for C10 at a concrete input: `Every(3).Weeks()` on Tuesday
with an empty `At`, anchored at Sunday 00:00. -/
theorem duration_no_at_witness :
    nextAtMatch 0 weekNoAtWhen.At = 0 ∧
    (tWeek = tHour → Duration weekNoAtWhen 0 = 3 * hour) ∧
    (tWeek = tDay → Duration weekNoAtWhen 0 = 3 * 24 * hour) ∧
    (tWeek = tWeek → Duration weekNoAtWhen 0 =
      ((3 : Int) * 7 +
        (if weekNoAtWhen.On = NoDay then 0
         else (weekNoAtWhen.On - 1 - weekdayOf 0) % 7)) * (24 * hour)) :=
  duration_no_at weekNoAtWhen { t := tWeek, n := 3 } 0 rfl rfl rfl
    (Or.inr (by decide))

lemma digit_bounds {c : Char} (h : c.isDigit = true) :
    48 ≤ c.toNat ∧ c.toNat ≤ 57 := by
  simp [Char.isDigit] at h
  exact h

lemma digitVal_bounds {c : Char} (h : c.isDigit = true) :
    0 ≤ digitVal c ∧ digitVal c ≤ 9 := by
  have h1 := digit_bounds h
  have h2 : ('0').toNat = 48 := rfl
  unfold digitVal
  omega

lemma parseIntOr0_two {a b : Char} (ha : a.isDigit = true)
    (hb : b.isDigit = true) :
    parseIntOr0 [a, b] = 10 * digitVal a + digitVal b := by
  simp [parseIntOr0, ha, hb]

lemma parseIntOr0_one {a : Char} (ha : a.isDigit = true) :
    parseIntOr0 [a] = digitVal a := by
  simp [parseIntOr0, ha]

lemma foldl_digits_nonneg :
    ∀ (s : List Char) (acc : Int), 0 ≤ acc →
      (∀ c ∈ s, c.isDigit = true) →
      0 ≤ s.foldl (fun a c => 10 * a + digitVal c) acc := by
  intro s
  induction s with
  | nil => intro acc h _; simpa using h
  | cons c cs ih =>
    intro acc hacc hall
    simp only [List.foldl_cons]
    apply ih
    · have hd := (digitVal_bounds (hall c (by simp))).1
      omega
    · intro x hx
      exact hall x (by simp [hx])

lemma parseIntOr0_nonneg (s : List Char) : 0 ≤ parseIntOr0 s := by
  unfold parseIntOr0
  split
  · rename_i h
    exact foldl_digits_nonneg s 0 le_rfl
      (by intro c hc; exact List.all_eq_true.mp h.2 c hc)
  · exact le_rfl

lemma goMod_eq_emod (val : List Char) (n m : Int)
    (hn : 0 ≤ n) (hnm : n < m) :
    goMod val n m = (parseIntOr0 val - n) % m := by
  have h0 : 0 ≤ parseIntOr0 val := parseIntOr0_nonneg val
  have hmpos : 0 < m := lt_of_le_of_lt hn hnm
  unfold goMod
  rw [Int.tmod_eq_emod (by omega) (by omega)]
  rw [show m + parseIntOr0 val - n = parseIntOr0 val - n + m * 1 from by ring,
    Int.add_mul_emod_self_left]

lemma goMod_nonneg (val : List Char) (n m : Int)
    (hn : 0 ≤ n) (hnm : n < m) : 0 ≤ goMod val n m := by
  have h0 := parseIntOr0_nonneg val
  unfold goMod
  exact Int.tmod_nonneg _ (by omega)

lemma findAtMatch_sound :
    ∀ (l : List Char) (a b c d : Char),
      findAtMatch l = some (a, b, c, d) →
      atClass a = true ∧ atClass b = true ∧ atClass c = true ∧
        d.isDigit = true := by
  intro l
  induction l with
  | nil => intro a b c d h; simp [findAtMatch] at h
  | cons x rest ih =>
    intro a b c d h
    rcases rest with _ | ⟨y, _ | ⟨z, _ | ⟨u, _ | ⟨v, tail⟩⟩⟩⟩
    · simp [findAtMatch] at h
    · simp [findAtMatch] at h
    · simp [findAtMatch] at h
    · simp [findAtMatch] at h
    · have h' :
          (if atClass x ∧ atClass y ∧ z = ':' ∧ atClass u ∧ v.isDigit then
            some (x, y, u, v)
          else findAtMatch (y :: z :: u :: v :: tail)) = some (a, b, c, d) :=
        h
      by_cases hcnd : atClass x ∧ atClass y ∧ z = ':' ∧ atClass u ∧ v.isDigit
      · rw [if_pos hcnd] at h'
        simp only [Option.some.injEq, Prod.mk.injEq] at h'
        obtain ⟨h1, h2, h3, h4⟩ := h'
        subst h1; subst h2; subst h3; subst h4
        exact ⟨hcnd.1, hcnd.2.1, hcnd.2.2.2.1, hcnd.2.2.2.2⟩
      · rw [if_neg hcnd] at h'
        exact ih a b c d h'

lemma minuteOf_tmod_ten (t : Int) :
    Int.tmod (minuteOf t) 10 = minuteOf t % 10 :=
  Int.tmod_eq_emod (minuteOf_nonneg t) (by norm_num)

lemma nextAtMatch_nonneg (u : Int) (q : String) : 0 ≤ nextAtMatch u q := by
  unfold nextAtMatch
  cases hm : findAtMatch q.data with
  | none => exact le_rfl
  | some quad =>
    obtain ⟨a, b, c, d⟩ := quad
    have h24 := hourOf_nonneg u
    have h24' := hourOf_lt u
    have h60 := minuteOf_nonneg u
    have h60' := minuteOf_lt u
    have hm10 : 0 ≤ Int.tmod (minuteOf u) 10 := Int.tmod_nonneg _ h60
    have hm10' : Int.tmod (minuteOf u) 10 < 10 :=
      Int.tmod_lt_of_pos _ (by norm_num)
    have hpos : (0 : Int) ≤ hour := by
      norm_num [hour, minute, second, millisecond]
    have mpos : (0 : Int) ≤ minute := by
      norm_num [minute, second, millisecond]
    apply add_nonneg
    · split
      · exact le_rfl
      · exact mul_nonneg hpos (goMod_nonneg _ _ _ h24 h24')
    · split
      · exact mul_nonneg mpos (goMod_nonneg _ _ _ hm10 hm10')
      · exact mul_nonneg mpos (goMod_nonneg _ _ _ h60 h60')

/-- C4: for every anchor and every matched `At` pattern whose hour group
is `**` or two literal digits and whose minute group has a literal units
digit and a `*` or literal tens digit: a non-`**` hour group contributes
`((pattern_hour - anchor_hour) mod 24)` hours and a `**` hour group
nothing; a `*`-tens minute group contributes
`((units_digit - (anchor_minute mod 10)) mod 10)` minutes; a two-digit
minute group contributes `((pattern_minute - anchor_minute) mod 60)`
minutes; and the clock-time delta is non-negative for every anchor and
every pattern whatsoever. -/
theorem nextAtMatch_deltas (t : Int) (pat : String) (a b c d : Char)
    (hm : findAtMatch pat.data = some (a, b, c, d))
    (hab : (a = '*' ∧ b = '*') ∨ (a.isDigit = true ∧ b.isDigit = true))
    (hcw : c = '*' ∨ c.isDigit = true) :
    nextAtMatch t pat =
      (if a = '*' ∧ b = '*' then 0
       else (10 * digitVal a + digitVal b - hourOf t) % 24 * hour) +
      (if c = '*' then (digitVal d - minuteOf t % 10) % 10 * minute
       else (10 * digitVal c + digitVal d - minuteOf t) % 60 * minute) ∧
    (∀ (u : Int) (q : String), 0 ≤ nextAtMatch u q) := by
  have hdd := (findAtMatch_sound pat.data a b c d hm).2.2.2
  refine ⟨?_, fun u q => nextAtMatch_nonneg u q⟩
  have h24 := hourOf_nonneg t
  have h24' := hourOf_lt t
  have h60 := minuteOf_nonneg t
  have h60' := minuteOf_lt t
  have hm10 : 0 ≤ Int.tmod (minuteOf t) 10 := Int.tmod_nonneg _ h60
  have hm10' : Int.tmod (minuteOf t) 10 < 10 :=
    Int.tmod_lt_of_pos _ (by norm_num)
  unfold nextAtMatch
  rw [hm]
  show (if a = '*' ∧ b = '*' then 0
      else hour * goMod [a, b] (hourOf t) 24) +
    (if c = '*' then minute * goMod [d] (Int.tmod (minuteOf t) 10) 10
      else minute * goMod [c, d] (minuteOf t) 60) = _
  congr 1
  · by_cases hs : a = '*' ∧ b = '*'
    · rw [if_pos hs, if_pos hs]
    · rcases hab with h | h
      · exact absurd h hs
      · rw [if_neg hs, if_neg hs, goMod_eq_emod _ _ _ h24 h24',
          parseIntOr0_two h.1 h.2, mul_comm]
  · by_cases hs : c = '*'
    · rw [if_pos hs, if_pos hs, goMod_eq_emod _ _ _ hm10 hm10',
        parseIntOr0_one hdd, minuteOf_tmod_ten, mul_comm]
    · rcases hcw with h | h
      · exact absurd h hs
      · rw [if_neg hs, if_neg hs, goMod_eq_emod _ _ _ h60 h60',
          parseIntOr0_two h hdd, mul_comm]

/-- Witness for C4 at a concrete input: the pattern `"10:00"` at the
epoch anchor (hour 0, minute 0). -/
theorem nextAtMatch_deltas_witness :
    nextAtMatch 0 "10:00" =
      (if ('1' = '*' ∧ '0' = '*') then 0
       else (10 * digitVal '1' + digitVal '0' - hourOf 0) % 24 * hour) +
      (if '0' = '*' then (digitVal '0' - minuteOf 0 % 10) % 10 * minute
       else (10 * digitVal '0' + digitVal '0' - minuteOf 0) % 60 * minute) ∧
    (∀ (u : Int) (q : String), 0 ≤ nextAtMatch u q) :=
  nextAtMatch_deltas 0 "10:00" '1' '0' '0' '0' (by decide)
    (Or.inr ⟨by decide, by decide⟩) (Or.inr (by decide))

lemma lifeStep_forever {s u : LifeState} (h : LifeStep s u) :
    u.forever = s.forever := by
  cases h <;> rfl

lemma lifeReach_forever {s u : LifeState} (h : LifeReach s u) :
    u.forever = s.forever := by
  induction h with
  | refl => rfl
  | tail _ hstep ih => rw [lifeStep_forever hstep, ih]

/-- Invariant: once the cancellation handshake has happened (the cancel
thread is past its send), the job entry is done and its timer stopped. -/
lemma cancel_handshake_invariant (b : Bool) (s : LifeState)
    (h : LifeReach (initLife b) s) :
    (s.cphase = CancelPhase.stopping ∨ s.cphase = CancelPhase.returned) →
      s.phase = JobPhase.finished ∧ s.timerStopped = true := by
  induction h with
  | refl => intro hc; cases hc <;> simp_all [initLife]
  | tail hr hstep ih =>
    intro hc
    cases hstep with
    | arm h1 h2 =>
      exfalso
      have := ih (by simpa using hc)
      rw [h1] at this
      simp at this
    | fire h1 h2 =>
      exfalso
      have := ih (by simpa using hc)
      rw [h1] at this
      simp at this
    | finish h1 =>
      exfalso
      have := ih (by simpa using hc)
      rw [h1] at this
      simp at this
    | cancelCall h1 =>
      exfalso
      simp only at hc
      cases hc <;> simp_all
    | rendezvous h1 h2 => exact ⟨rfl, rfl⟩
    | cancelReturn h1 =>
      have := ih (Or.inl h1)
      exact ⟨this.1, rfl⟩

/-- After the cancel thread has returned, no lifecycle step is enabled at
all. -/
lemma cancel_returned_stuck (b : Bool) (s : LifeState)
    (h : LifeReach (initLife b) s) (hc : s.cphase = CancelPhase.returned) :
    ∀ u, ¬LifeStep s u := by
  have hfin := cancel_handshake_invariant b s h (Or.inr hc)
  intro u hstep
  cases hstep with
  | arm h1 h2 => rw [hfin.1] at h1; cases h1
  | fire h1 h2 => rw [hfin.1] at h1; cases h1
  | finish h1 => rw [hfin.1] at h1; cases h1
  | cancelCall h1 => rw [hc] at h1; cases h1
  | rendezvous h1 h2 => rw [hc] at h2; cases h2
  | cancelReturn h1 => rw [hc] at h1; cases h1

/-- C8: for every job lifecycle reachable from its first `schedule()`
call, once the cancel call has returned no further transition happens at
all — in particular no new run starts and no new timer is armed; and
(second conjunct) the only transition out of a running job body is its
normal completion: no cancellation step interrupts it, the signal being
observed only at the next `schedule()` call. -/
theorem cancel_no_new_runs (b : Bool) (s u : LifeState)
    (hr : LifeReach (initLife b) s) (hc : s.cphase = CancelPhase.returned)
    (hu : LifeReach s u) :
    (u.runs = s.runs ∧ u.arms = s.arms) ∧
    (∀ x y : LifeState, LifeStep x y → x.phase = JobPhase.running →
      y.phase = JobPhase.running ∨
        (y.runs = x.runs ∧
          y.phase =
            (if x.forever then JobPhase.scheduling else JobPhase.finished))) := by
  constructor
  · have hstuck := cancel_returned_stuck b s hr hc
    have : u = s := by
      cases (Relation.reflTransGen_iff_eq
        (fun v hv => hstuck v hv)).mp hu
      rfl
    rw [this]
    exact ⟨rfl, rfl⟩
  · intro x y hstep hx
    cases hstep with
    | arm h1 h2 => rw [hx] at h1; cases h1
    | fire h1 h2 => rw [hx] at h1; cases h1
    | finish h1 => exact Or.inr ⟨rfl, rfl⟩
    | cancelCall h1 => exact Or.inl hx
    | rendezvous h1 h2 => rw [hx] at h1; cases h1
    | cancelReturn h1 => exact Or.inl hx

/-- Witness for C8 at a concrete input: a recurring job that arms, fires,
runs, re-enters `schedule()`, rendezvouses with a cancel call and sees
the cancel return; from that final state nothing changes. -/
theorem cancel_no_new_runs_witness :
    (cancelledState.runs = cancelledState.runs ∧
      cancelledState.arms = cancelledState.arms) ∧
    (∀ x y : LifeState, LifeStep x y → x.phase = JobPhase.running →
      y.phase = JobPhase.running ∨
        (y.runs = x.runs ∧
          y.phase =
            (if x.forever then JobPhase.scheduling
             else JobPhase.finished))) := by
  have hreach : LifeReach (initLife true) cancelledState := by
    refine Relation.ReflTransGen.head
      (LifeStep.arm (initLife true) rfl (by decide)) ?_
    refine Relation.ReflTransGen.head (LifeStep.fire _ rfl rfl) ?_
    refine Relation.ReflTransGen.head (LifeStep.finish _ rfl) ?_
    refine Relation.ReflTransGen.head (LifeStep.cancelCall _ rfl) ?_
    refine Relation.ReflTransGen.head (LifeStep.rendezvous _ rfl rfl) ?_
    refine Relation.ReflTransGen.head (LifeStep.cancelReturn _ rfl) ?_
    exact Relation.ReflTransGen.refl
  exact cancel_no_new_runs true cancelledState cancelledState hreach rfl
    Relation.ReflTransGen.refl

/-- Invariant for a non-recurring job: it performs at most one run, and
none before its timer first fires. -/
lemma oneShot_runs_le_one (s : LifeState)
    (h : LifeReach (initLife false) s) :
    s.runs ≤ 1 ∧
      ((s.phase = JobPhase.scheduling ∨ s.phase = JobPhase.waiting) →
        s.runs = 0) := by
  induction h with
  | refl => exact ⟨by simp [initLife], fun _ => rfl⟩
  | tail hr hstep ih =>
    cases hstep with
    | arm h1 h2 =>
      exact ⟨ih.1, fun _ => ih.2 (Or.inl h1)⟩
    | fire h1 h2 =>
      refine ⟨?_, ?_⟩
      · have h0 := ih.2 (Or.inr h1)
        simp only []
        omega
      · intro hph
        rcases hph with hph | hph <;> cases hph
    | finish h1 =>
      rename_i st
      have hforever : st.forever = false := by
        simpa [initLife] using lifeReach_forever hr
      refine ⟨ih.1, ?_⟩
      intro hph
      rw [show ({ st with phase := if st.forever = true then
          JobPhase.scheduling else JobPhase.finished } : LifeState).phase =
          JobPhase.finished from by rw [hforever]; rfl] at hph
      rcases hph with hph | hph <;> cases hph
    | cancelCall h1 => exact ⟨ih.1, ih.2⟩
    | rendezvous h1 h2 =>
      refine ⟨ih.1, ?_⟩
      intro hph
      rcases hph with hph | hph <;> cases hph
    | cancelReturn h1 => exact ⟨ih.1, ih.2⟩

/-- C7: a successfully registered entry carries
`forever = (When.Every != nil)`; the timer callback re-arms (re-enters
`schedule()`) exactly when `forever` is set, and otherwise the entry is
done after its single run; consequently a job whose `forever` flag is
unset (as for a spec using only `Each` or `At`/`On`) never runs more than
once. -/
theorem forever_iff_every (s : Scheduler) (name : String) (opts : Opts)
    (w : When) (now : Int) (hw : opts.When = some w)
    (hok : (ScheduleWithOpts s name opts now).1 = none) :
    ((ScheduleWithOpts s name opts now).2.jobs.lookup name =
      some { retryCount := opts.RetryCount, when := w,
             forever := w.Every.isSome }) ∧
    (∀ x y : LifeState, LifeStep x y → x.phase = JobPhase.running →
      y.phase ≠ JobPhase.running →
      ((y.phase = JobPhase.scheduling ↔ x.forever = true) ∧
       (y.phase = JobPhase.finished ↔ x.forever = false))) ∧
    (∀ x : LifeState, LifeReach (initLife false) x → x.runs ≤ 1) := by
  refine ⟨?_, ?_, fun x hx => (oneShot_runs_le_one x hx).1⟩
  · by_cases hdup : (s.jobs.lookup name).isSome
    · exfalso
      unfold ScheduleWithOpts at hok
      rw [if_pos hdup] at hok
      cases hok
    · by_cases hz : Duration w now = 0
      · exfalso
        unfold ScheduleWithOpts at hok
        rw [if_neg hdup, hw] at hok
        simp [hz] at hok
      · unfold ScheduleWithOpts
        rw [if_neg hdup, hw]
        simp [hz, List.lookup]
  · intro x y hstep hx hy
    cases hstep with
    | arm h1 h2 => rw [hx] at h1; cases h1
    | fire h1 h2 => rw [hx] at h1; cases h1
    | finish h1 =>
      cases hf : x.forever with
      | true => simp [hf]
      | false => simp [hf]
    | cancelCall h1 => exact absurd hx hy
    | rendezvous h1 h2 => rw [hx] at h1; cases h1
    | cancelReturn h1 => exact absurd hx hy

/-- Witness for C7 at a concrete input: registering `fiveMinWhen` (an
`Every`-based spec) on an empty scheduler yields an entry with
`forever = true`. -/
theorem forever_iff_every_witness :
    ((ScheduleWithOpts { jobs := [], started := false } "hi"
        { When := some fiveMinWhen, RetryCount := 0, Timeout := 0 }
        0).2.jobs.lookup "hi" =
      some { retryCount := 0, when := fiveMinWhen,
             forever := fiveMinWhen.Every.isSome }) ∧
    (∀ x y : LifeState, LifeStep x y → x.phase = JobPhase.running →
      y.phase ≠ JobPhase.running →
      ((y.phase = JobPhase.scheduling ↔ x.forever = true) ∧
       (y.phase = JobPhase.finished ↔ x.forever = false))) ∧
    (∀ x : LifeState, LifeReach (initLife false) x → x.runs ≤ 1) :=
  forever_iff_every { jobs := [], started := false } "hi"
    { When := some fiveMinWhen, RetryCount := 0, Timeout := 0 }
    fiveMinWhen 0 rfl (by decide)

lemma duration_const_smallUnit (w : When) (e : every)
    (heach : w.Each = none) (hev : w.Every = some e)
    (ht : e.t = tMillisecond ∨ e.t = tSecond ∨ e.t = tMinute) :
    ∀ u : Int, Duration w u = e.n * unitLen e.t := by
  intro u
  rcases ht with ht | ht | ht <;>
    simp [Duration, heach, hev, ht, unitLen, tMillisecond, tSecond, tMinute]

lemma nextLoop_const_base (w : When) (base start now : Int)
    (hdur : ∀ u : Int, Duration w u = base) (k : Int)
    (hk : now < start + k * base)
    (hmin : ∀ i : Int, 1 ≤ i → i < k → start + i * base ≤ now) :
    ∀ (fuel : Nat) (j : Int), 1 ≤ j → j ≤ k → (k - j).toNat < fuel →
      nextLoop w start now fuel (j * base) =
        some (start + k * base - now) := by
  intro fuel
  induction fuel with
  | zero => intro j h1 h2 h3; omega
  | succ n ih =>
    intro j h1 h2 h3
    rcases eq_or_lt_of_le h2 with rfl | hlt
    · have hdiff : 0 < start + j * base - now := by omega
      simp only [nextLoop, if_pos hdiff]
    · have hle : start + j * base ≤ now := hmin j h1 hlt
      have hdiff : ¬(0 < start + j * base - now) := by omega
      simp only [nextLoop, if_neg hdiff]
      rw [hdur (start + j * base),
        show j * base + base = (j + 1) * base from by ring]
      exact ih (j + 1) (by omega) (by omega) (by omega)

/-- C1: for a valid `every`-based spec with unit millisecond, second or
minute and count `n ≥ 1`, `Next` (with enough fuel) returns the strictly
positive duration `anchor + k * base - now`, where `base = n * unit` and
`k * base` is the smallest whole multiple of the base interval counted
from the anchor that lands strictly after `now` (fourth conjunct:
every earlier multiple is not after `now`); in particular when
`now - anchor < base` the result is exactly `base - (now - anchor)`. -/
theorem next_small_unit (w : When) (e : every) (start now : Int)
    (heach : w.Each = none) (hev : w.Every = some e)
    (ht : e.t = tMillisecond ∨ e.t = tSecond ∨ e.t = tMinute)
    (hn : 1 ≤ e.n) :
    ∃ (fuel : Nat) (k : Int),
      1 ≤ k ∧
      Next w start now fuel = some (start + k * (e.n * unitLen e.t) - now) ∧
      0 < start + k * (e.n * unitLen e.t) - now ∧
      (∀ j : Int, 1 ≤ j → j < k → start + j * (e.n * unitLen e.t) ≤ now) ∧
      (now - start < e.n * unitLen e.t →
        start + k * (e.n * unitLen e.t) - now =
          e.n * unitLen e.t - (now - start)) := by
  have hu : 0 < unitLen e.t := by
    rcases ht with ht | ht | ht <;>
      norm_num [unitLen, ht, tMillisecond, tSecond, tMinute, millisecond,
        second, minute]
  set base := e.n * unitLen e.t with hbase
  have hbpos : 0 < base := mul_pos (by omega) hu
  set q := (now - start) / base with hq
  set r := (now - start) % base with hr
  have hqr : base * q + r = now - start := Int.ediv_add_emod _ _
  have hr0 : 0 ≤ r := Int.emod_nonneg _ (ne_of_gt hbpos)
  have hrb : r < base := Int.emod_lt_of_pos _ hbpos
  set k := max 1 (q + 1) with hkdef
  have hk1 : 1 ≤ k := le_max_left _ _
  have hk : now < start + k * base := by
    rcases le_or_lt (q + 1) 1 with hc | hc
    · have hkeq : k = 1 := max_eq_left hc
      have hql : base * q ≤ base * 0 :=
        mul_le_mul_of_nonneg_left (by omega) (le_of_lt hbpos)
      rw [hkeq]
      nlinarith
    · have hkeq : k = q + 1 := max_eq_right (le_of_lt hc)
      rw [hkeq]
      nlinarith
  have hmin : ∀ i : Int, 1 ≤ i → i < k → start + i * base ≤ now := by
    intro i hi1 hik
    rcases le_or_lt (q + 1) 1 with hc | hc
    · have hkeq : k = 1 := max_eq_left hc
      rw [hkeq] at hik
      omega
    · have hkeq : k = q + 1 := max_eq_right (le_of_lt hc)
      rw [hkeq] at hik
      have : i * base ≤ q * base :=
        mul_le_mul_of_nonneg_right (by omega) (le_of_lt hbpos)
      nlinarith
  refine ⟨(k - 1).toNat + 1, k, hk1, ?_, by omega, hmin, ?_⟩
  · have hstart : Duration w start = base :=
      duration_const_smallUnit w e heach hev ht start
    have hloop := nextLoop_const_base w base start now
      (duration_const_smallUnit w e heach hev ht) k hk hmin
      ((k - 1).toNat + 1) 1 le_rfl hk1 (by omega)
    rw [one_mul] at hloop
    unfold Next
    rw [hstart]
    exact hloop
  · intro hlt
    have hq0 : q + 1 ≤ 1 := by
      by_contra hcon
      have hq1 : 1 ≤ q := by omega
      have : base * 1 ≤ base * q :=
        mul_le_mul_of_nonneg_left hq1 (le_of_lt hbpos)
      nlinarith
    have hkeq : k = 1 := max_eq_left hq0
    rw [hkeq]
    ring

/-- Witness for C1 at a concrete input: `Every(5).Minutes()` with anchor
and clock both at the epoch; the next run is one base interval away. -/
theorem next_small_unit_witness :
    ∃ (fuel : Nat) (k : Int),
      1 ≤ k ∧
      Next fiveMinWhen 0 0 fuel =
        some (0 + k * ((5 : Int) * unitLen tMinute) - 0) ∧
      0 < 0 + k * ((5 : Int) * unitLen tMinute) - 0 ∧
      (∀ j : Int, 1 ≤ j → j < k →
        0 + j * ((5 : Int) * unitLen tMinute) ≤ 0) ∧
      ((0 : Int) - 0 < (5 : Int) * unitLen tMinute →
        0 + k * ((5 : Int) * unitLen tMinute) - 0 =
          (5 : Int) * unitLen tMinute - ((0 : Int) - 0)) :=
  next_small_unit fiveMinWhen { t := tMinute, n := 5 } 0 0 rfl rfl
    (Or.inr (Or.inr rfl)) (by norm_num)

/-- C10 counterexample: the `At` string `"|0:00"` contains no substring
of the claim's described shape (each hour character a digit or `*`,
minute tens a digit or `*`, minute units a digit), yet the code's
matcher accepts it — its class also contains `|` — and `ParseInt("|0")`
errors to 0, so at an anchor with hour 5 the clock-time delta is
`(24 + 0 - 5) mod 24 = 19` hours, not zero; consequently the hour-unit
duration is `1h + 19h = 20h`, not `1h`. -/
theorem duration_no_at_counterexample :
    findSpecShape ("|0:00").data = none ∧
    nextAtMatch (5 * hour) "|0:00" = 19 * hour ∧
    Duration pipeAtWhen (5 * hour) = 20 * hour ∧
    (19 : Int) * hour ≠ 0 ∧
    (20 : Int) * hour ≠ 1 * hour := by
  refine ⟨rfl, rfl, rfl, ?_, ?_⟩ <;>
    norm_num [hour, minute, second, millisecond]

end Ticktock
